import Mathlib

/-!
Verification development for `gkeep2notion.py`.

Shallow embedding conventions:
* Python strings are modelled as `List Char`.
* The Python regular expressions used by the script are embedded as
  executable matchers over `List Char`, following Python's backtracking
  (leftmost, greedy) semantics for the concrete patterns that appear in
  the source.  The Python classes `\d`, `\s` and `\w` are restricted to
  their ASCII members, which are the only ones the source's regexes are
  exercised with.
* The two network clients are modelled by their locally observable
  effects: page creation is an id-assigning state transition, and the
  wall clock used by the throttle is an explicit rational-valued input.
-/

set_option maxHeartbeats 1000000

namespace Gkeep2Notion

/-- ASCII members of Python's regex class matching whitespace. -/
def isPySpace (c : Char) : Bool :=
  c = ' ' || c = '\t' || c = '\n' || c = '\r' || c = '\x0b' || c = '\x0c'

/-- Python regex word-character class (ASCII restriction). -/
def isWordChar (c : Char) : Bool :=
  c.isAlphanum || c = '_'

/-- The `BlockType` string enum of the source, one constructor per member. -/
inductive BlockType where
  | Paragraph
  | H1
  | H2
  | H3
  | BulletedListItem
  | NumberedListItem
  | ToDo
  | Toggle
  | ChildPage
  | ChildDatabase
  | Embed
  | Image
  | Video
  | File
  | PDF
  | Bookmark
  | Callout
  | Quote
  | Equation
  | Divider
  | TableOfContents
  | Column
  | ColumnList
  | LinkPreview
  | SyncedBlock
  | Template
  | LinkToPage
  | Table
  | TableRow
  | Unsupported
  deriving DecidableEq, Repr

/-- The `{'type': ..., 'text': ...}` dict returned by `parseBlock`. -/
structure ParsedBlock where
  type : BlockType
  text : List Char
  deriving DecidableEq, Repr

/-- Backtracking matcher for the regex fragment `\s+(.+)` applied to `tail`,
trying the greedy whitespace length first and giving characters back one at a
time, exactly as Python's engine does.  The first argument is the number of
whitespace characters still available to `\s+`. -/
def wsGroupAux : Nat → List Char → Option (List Char)
  | 0, _ => none
  | j + 1, tail =>
    let g := (tail.drop (j + 1)).takeWhile (fun c => c != '\n')
    if g.isEmpty then wsGroupAux j tail else some g

/-- Matcher for `\s+(.+)`: the returned list is the text captured by `(.+)`. -/
def wsGroup (tail : List Char) : Option (List Char) :=
  wsGroupAux (tail.takeWhile isPySpace).length tail

/-- Matcher for `^(\d+)\.\s+(.+)` (source line 267); returns group 2. -/
def matchNumbered (p : List Char) : Option (List Char) :=
  let ds := p.takeWhile Char.isDigit
  if ds.isEmpty then none
  else
    match p.drop ds.length with
    | '.' :: tail => wsGroup tail
    | _ => none

/-- Matcher for `^\s*(\*|-)\s+(.+)` (source line 274); returns group 2. -/
def matchBulleted (p : List Char) : Option (List Char) :=
  let ws := p.takeWhile isPySpace
  match p.drop ws.length with
  | c :: tail => if c = '*' || c = '-' then wsGroup tail else none
  | [] => none

/-- Matcher for `^>\s+(.+)` (source line 280); returns group 1. -/
def matchQuote (p : List Char) : Option (List Char) :=
  match p with
  | '>' :: tail => wsGroup tail
  | _ => none

/-- `parseBlock` from the source: classify one line of a Keep note, first
matching rule wins, fallback is a verbatim paragraph. -/
def parseBlock (p : List Char) : ParsedBlock :=
  match matchNumbered p with
  | some t => ⟨BlockType.NumberedListItem, t⟩
  | none =>
  match matchBulleted p with
  | some t => ⟨BlockType.BulletedListItem, t⟩
  | none =>
  match matchQuote p with
  | some t => ⟨BlockType.Quote, t⟩
  | none => ⟨BlockType.Paragraph, p⟩

/-- Line-break characters recognised by Python's `str.splitlines`. -/
def isLineBreakChar (c : Char) : Bool :=
  c = '\n' || c = '\r' || c = '\x0b' || c = '\x0c' ||
  c = '\x1c' || c = '\x1d' || c = '\x1e' || c = '\x85' ||
  c = '\u2028' || c = '\u2029'

/-- Worker for `splitlines`: `cur` is the (already scanned) prefix of the
current line.  A `\r\n` pair counts as a single break, and a terminal break
produces no trailing empty line, matching `str.splitlines`. -/
def splitlinesGo (cur : List Char) : List Char → List (List Char)
  | [] => [cur]
  | c :: rest =>
    if c = '\r' then
      match rest with
      | [] => [cur]
      | '\n' :: rest2 =>
        match rest2 with
        | [] => [cur]
        | d :: u => cur :: splitlinesGo [] (d :: u)
      | d :: u => cur :: splitlinesGo [] (d :: u)
    else if isLineBreakChar c then
      match rest with
      | [] => [cur]
      | d :: u => cur :: splitlinesGo [] (d :: u)
    else
      splitlinesGo (cur ++ [c]) rest

/-- Python `str.splitlines` (`""` yields no lines at all). -/
def splitlines : List Char → List (List Char)
  | [] => []
  | c :: t => splitlinesGo [] (c :: t)

/-! ### RichText: the URL regex and chunk splitting (source lines 50-92)

The regex is `(https?://[\w\-\.]+\.[a-z]+(?:/[\w_\.%\-&\?=/#]*)*)`. -/

/-- Character class `[\w\-\.]` (URL host part). -/
def isHostChar (c : Char) : Bool :=
  isWordChar c || c = '-' || c = '.'

/-- Character class `[a-z]` of the top-level-domain part. -/
def isLowerAZ (c : Char) : Bool :=
  c.isLower

/-- Character class `[\w_\.%\-&\?=/#]` of the URL path part. -/
def isPathChar (c : Char) : Bool :=
  isWordChar c || c = '_' || c = '.' || c = '%' || c = '-' || c = '&' ||
  c = '?' || c = '=' || c = '/' || c = '#'

/-- Matcher for `https?://` at the head of the input; returns the consumed
scheme characters and the remainder. -/
def stripScheme : List Char → Option (List Char × List Char)
  | 'h' :: 't' :: 't' :: 'p' :: 's' :: ':' :: '/' :: '/' :: t =>
    some (['h', 't', 't', 'p', 's', ':', '/', '/'], t)
  | 'h' :: 't' :: 't' :: 'p' :: ':' :: '/' :: '/' :: t =>
    some (['h', 't', 't', 'p', ':', '/', '/'], t)
  | _ => none

def headIsLower : List Char → Bool
  | c :: _ => isLowerAZ c
  | [] => false

/-- Within the maximal `[\w\-\.]` run, find the split `host ++ '.' :: after`
chosen by the backtracking engine for `[\w\-\.]+\.[a-z]+`: the LAST dot that
is preceded by at least one run character and followed by a lowercase letter.
Returns `(host, after)`. -/
def lastDotSplit : List Char → Option (List Char × List Char)
  | [] => none
  | [_] => none
  | c :: d :: u =>
    match lastDotSplit (d :: u) with
    | some (a, b) => some (c :: a, b)
    | none => if d = '.' && headIsLower u then some ([c], u) else none

/-- Fuelled worker for the path part `(?:/[\w_\.%\-&\?=/#]*)*` (each
iteration consumes the leading `/`, so length-many steps always suffice). -/
def matchPathStarAux : Nat → List Char → List Char × List Char
  | 0, t => ([], t)
  | fuel + 1, t =>
    match t with
    | '/' :: rest =>
      let seg := rest.takeWhile isPathChar
      let pr := matchPathStarAux fuel (rest.drop seg.length)
      ('/' :: (seg ++ pr.1), pr.2)
    | _ => ([], t)

/-- Matcher for the path part: returns the matched path characters and the
remainder. -/
def matchPathStar (t : List Char) : List Char × List Char :=
  matchPathStarAux t.length t

/-- Match the URL regex at the start of `s` (greedy, with backtracking);
returns the matched text and the remainder of `s`. -/
def matchURLAt (s : List Char) : Option (List Char × List Char) :=
  match stripScheme s with
  | none => none
  | some (scheme, t) =>
    let run := t.takeWhile isHostChar
    match lastDotSplit run with
    | none => none
    | some (hst, b) =>
      let tld := b.takeWhile isLowerAZ
      let pr := matchPathStar (t.drop (hst.length + 1 + tld.length))
      some (scheme ++ hst ++ '.' :: (tld ++ pr.1), pr.2)

/-- Leftmost search for the URL regex: returns
`(text before the match, match, text after the match)`. -/
def findURLFrom : List Char → Option (List Char × List Char × List Char)
  | [] => none
  | c :: t =>
    match matchURLAt (c :: t) with
    | some (m, rest) => some ([], m, rest)
    | none =>
      match findURLFrom t with
      | some (pre, m, rest) => some (c :: pre, m, rest)
      | none => none

/-- Fuelled worker for `re.split` with the URL regex: unmatched spans and the
(single capturing group) matches are kept, in order. -/
def urlSplitAux : Nat → List Char → List (List Char)
  | 0, s => [s]
  | fuel + 1, s =>
    match findURLFrom s with
    | none => [s]
    | some (pre, m, rest) => pre :: m :: urlSplitAux fuel rest

/-- `RichText.urlRegex.split(text)` (each match shrinks the text, so
`text.length` is more than enough fuel). -/
def urlSplit (s : List Char) : List (List Char) :=
  urlSplitAux s.length s

def headIsSlash : List Char → Bool
  | '/' :: _ => true
  | _ => false

/-- Does the tail of a candidate full match (everything after the chosen dot)
complete the pattern exactly: `[a-z]+` then path segments to the very end. -/
def tailOkTld (rest : List Char) : Bool :=
  let tld := rest.takeWhile isLowerAZ
  !tld.isEmpty &&
    (let pth := rest.drop tld.length
     pth.isEmpty || (headIsSlash pth && pth.all isPathChar))

/-- Scan for a dot position completing a full match: some decomposition
`host ++ '.' :: tail` with all previous characters in `[\w\-\.]`. -/
def hostDotScan : List Char → Bool
  | [] => false
  | c :: t => (c = '.' && tailOkTld t) || (isHostChar c && hostDotScan t)

/-- `re.fullmatch` with the URL regex: does the whole string match?  (The
backtracking engine explores every host/tld split, hence the scan.) -/
def fullmatchURL (s : List Char) : Bool :=
  match stripScheme s with
  | none => false
  | some (_, t) =>
    match t with
    | [] => false
    | c :: t2 => isHostChar c && hostDotScan t2

/-- One entry of `RichText._chunks`: a plain text span, or a link span whose
display text and target are recorded separately (`add_chunk(text, url)`). -/
inductive RTChunk where
  | plain (content : List Char)
  | link (content : List Char) (url : List Char)
  deriving DecidableEq, Repr

/-- `RichText._parse`: split on the URL regex and turn each chunk that fully
matches the regex into a link chunk, every other chunk into a plain chunk. -/
def richTextChunks (text : List Char) : List RTChunk :=
  (urlSplit text).map
    (fun c => if fullmatchURL c then RTChunk.link c c else RTChunk.plain c)

/-! ### Page model (source lines 95-164) -/

/-- One child block of a page, as built by `add_text` / `add_todo`:
`checked` is present exactly for ToDo blocks. -/
structure BlockRec where
  type : BlockType
  rich_text : List RTChunk
  checked : Option Bool
  deriving DecidableEq, Repr

/-- The `Page` class: id is `''` until the page is persisted. -/
structure PageM where
  title : List Char
  parent_id : List Char
  id : List Char
  children : List BlockRec
  deriving DecidableEq, Repr

/-- `Page.__init__(title, parent_id)`. -/
def PageM.mkPage (title parent_id : List Char) : PageM :=
  ⟨title, parent_id, [], []⟩

/-- `Page.add_text(text, type)`. -/
def PageM.add_text (page : PageM) (text : List Char) (ty : BlockType) : PageM :=
  { page with children := page.children ++ [⟨ty, richTextChunks text, none⟩] }

/-- `Page.add_todo(text, checked)`. -/
def PageM.add_todo (page : PageM) (text : List Char) (checked : Bool) : PageM :=
  { page with
    children := page.children ++ [⟨BlockType.ToDo, richTextChunks text, some checked⟩] }

/-! ### Config (source lines 199-207) -/

/-- The raw configuration strings read from the ini file sections
`[gkeep]` and `[notion]`. -/
structure IniData where
  gkeep_email : List Char
  gkeep_import_notes : List Char
  gkeep_import_todos : List Char
  gkeep_import_media : List Char
  notion_token : List Char
  notion_root_url : List Char
  notion_merge_paragraphs : List Char
  deriving DecidableEq, Repr

/-- Python `str.lower`, ASCII restriction. -/
def lowerStr (s : List Char) : List Char :=
  s.map Char.toLower

/-- The `Config` object: note that only the three `[gkeep]` toggles are
converted to booleans, `merge_paragraphs` keeps the raw string. -/
structure ConfigM where
  email : List Char
  import_notes : Bool
  import_todos : Bool
  import_media : Bool
  token : List Char
  root_url : List Char
  merge_paragraphs : List Char
  deriving DecidableEq, Repr

/-- `Config.__init__(ini)`. -/
def configOfIni (ini : IniData) : ConfigM :=
  { email := ini.gkeep_email
    import_notes := lowerStr ini.gkeep_import_notes == ("true".toList)
    import_todos := lowerStr ini.gkeep_import_todos == ("true".toList)
    import_media := lowerStr ini.gkeep_import_media == ("true".toList)
    token := ini.notion_token
    root_url := ini.notion_root_url
    merge_paragraphs := ini.notion_merge_paragraphs }

/-! ### parseTextToPage (source lines 292-310) -/

/-- The loop body of `parseTextToPage`, linearised: `lastB` is the Python
`last_block` variable, the result is the list of `(type, text)` pairs passed
to `page.add_text`, in order.  In merged mode a pending paragraph keeps
absorbing paragraph lines (joined by `'\n'`) while the combined length stays
under 2000; the pending block is emitted when the next line cannot be merged,
and on the very last line (`x < len(lines) - 1` fails) it is emitted even
directly after a merge. -/
def pttpGo (merge : Bool) : Option ParsedBlock → List (List Char) → List ParsedBlock
  | _, [] => []
  | lastB, p :: rest =>
    let block := parseBlock p
    if merge = false then
      block :: pttpGo merge lastB rest
    else
      match lastB with
      | none => pttpGo merge (some block) rest
      | some lb =>
        if lb.type = BlockType.Paragraph ∧ lb.type = block.type ∧
            lb.text.length + block.text.length < 2000 then
          if rest.isEmpty then
            ⟨lb.type, lb.text ++ '\n' :: block.text⟩ :: pttpGo merge (some block) rest
          else
            pttpGo merge (some ⟨lb.type, lb.text ++ '\n' :: block.text⟩) rest
        else
          lb :: pttpGo merge (some block) rest

/-- The `(type, text)` pairs that `parseTextToPage(text, page, config)` adds
to the page: the body is split into lines, a synthetic empty line is appended
(`lines.insert(len(lines), '')`), and the loop runs in merged mode exactly
when the raw `merge_paragraphs` string is truthy, i.e. non-empty. -/
def parseTextToPageBlocks (text : List Char) (cfg : ConfigM) : List ParsedBlock :=
  pttpGo (!cfg.merge_paragraphs.isEmpty) none (splitlines text ++ [[]])

/-- `parseTextToPage` effect on the page object itself. -/
def parseTextToPage (text : List Char) (page : PageM) (cfg : ConfigM) : PageM :=
  (parseTextToPageBlocks text cfg).foldl (fun pg b => pg.add_text b.text b.type) page

/-! ### Throttle (source lines 168-183)

Time is modelled explicitly: `wait` takes the current value of `time.time()`
and returns the instant at which it lets the caller proceed, idealising
`time.sleep(d)` as advancing the clock by exactly `d`. -/

structure ThrottleM where
  rate_limit : ℚ
  interval : ℚ
  last_call : ℚ
  deriving DecidableEq, Repr

/-- `Throttle.__init__(rate_limit)`. -/
def mkThrottle (r : ℚ) : ThrottleM :=
  ⟨r, 1 / r, 0⟩

/-- `Throttle.wait()` invoked when the wall clock reads `now`; returns the
time at which the call proceeds together with the updated state. -/
def ThrottleM.wait (st : ThrottleM) (now : ℚ) : ℚ × ThrottleM :=
  let elapsed := now - st.last_call
  if 0 < st.last_call ∧ elapsed < st.interval then
    let t := now + (st.interval - elapsed)
    (t, { st with last_call := t })
  else
    (now, { st with last_call := now })

/-- The module-level `throttle = Throttle(3)`. -/
def throttle : ThrottleM :=
  mkThrottle 3

/-- The instants at which a sequence of `throttle.wait()` calls (arriving at
the given clock readings) proceed. -/
def throttleRuns : ThrottleM → List ℚ → List ℚ
  | _, [] => []
  | st, now :: rest =>
    let pr := st.wait now
    pr.1 :: throttleRuns pr.2 rest

/-! ### create_page batching (source lines 191-194) -/

/-- The loop `for i in range(0, len(children), 100)` of `create_page`,
started at index `i`: each iteration submits `children[i : i + 100]`. -/
def create_pageGo (children : List BlockRec) (i : Nat) : List (List BlockRec) :=
  if i < children.length then
    ((children.drop i).take 100) :: create_pageGo children (i + 100)
  else []
termination_by children.length - i

/-- The batches of child blocks that `create_page` submits, in order. -/
def create_pageBatches (children : List BlockRec) : List (List BlockRec) :=
  create_pageGo children 0

/-! ### Category resolution (source lines 314-340)

The destination service assigns ids; it is modelled as a counter `fresh`
rendered through `idGen`, which suffices for the import logic (the source
never inspects ids, it only copies them into parent references). -/

/-- A Keep note, reduced to the attributes the resolver reads:
`labels` is `getNoteCategories(note)`, the label names in order. -/
structure NoteM where
  title : List Char
  labels : List (List Char)
  deriving DecidableEq, Repr

def getNoteCategories (note : NoteM) : List (List Char) :=
  note.labels

/-- The mutable context threaded through the import run: the `categories`
dict (association list, first match wins), the log of pages persisted by
`create_page` in order, and the id counter of the modelled service. -/
structure ImportState where
  categories : List (List Char × PageM)
  created : List PageM
  fresh : Nat
  deriving DecidableEq, Repr

def idGen (n : Nat) : List Char :=
  Nat.toDigits 10 n

/-- `create_page(notion, page)`: the service assigns the next id; the page
(with its id set) is recorded in the `created` log. -/
def create_pageM (page : PageM) (st : ImportState) : PageM × ImportState :=
  let newPage := { page with id := idGen st.fresh }
  (newPage, { st with fresh := st.fresh + 1, created := st.created ++ [newPage] })

/-- Dict lookup `categories[parentKey]` (`none` models `key not in dict`). -/
def catLookup (k : List Char) : List (List Char × PageM) → Option PageM
  | [] => none
  | kv :: rest => if kv.1 = k then some kv.2 else catLookup k rest

/-- `importPageWithCategories(notion, note, root, categories)`: the new page
parented under the root, or under the (created-once, then cached) page of the
note's first label.  The dict entry is only ever written when the key is
absent, so prepending models the assignment exactly. -/
def importPageWithCategoriesM (note : NoteM) (root : PageM) (st : ImportState) :
    PageM × ImportState :=
  let rootName := root.title
  match getNoteCategories note with
  | [] => (PageM.mkPage note.title root.id, st)
  | parentName :: _ =>
    let parentKey := rootName ++ '.' :: parentName
    match catLookup parentKey st.categories with
    | some parent => (PageM.mkPage note.title parent.id, st)
    | none =>
      let pr := create_pageM (PageM.mkPage parentName root.id) st
      let st2 := { pr.2 with categories := (parentKey, pr.1) :: pr.2.categories }
      (PageM.mkPage note.title pr.1.id, st2)

/-! ### url2uuid (source lines 384-390)

The regex is `^https://(www\.)?notion.so/(.+)([0-9a-f]{32})` -- note the
unescaped dot in `notion.so` and that the match is a prefix match, so the
32-hex-character group is the rightmost window the backtracking `(.+)`
leaves, not necessarily the tail of the URL. -/

def isHexLower (c : Char) : Bool :=
  c.isDigit || ('a' ≤ c && c ≤ 'f')

/-- Matcher for the literal part `notion.so/` (the dot of the pattern is the
regex wildcard, matching any character except a newline). -/
def matchNotionSo : List Char → Option (List Char)
  | 'n' :: 'o' :: 't' :: 'i' :: 'o' :: 'n' :: c :: 's' :: 'o' :: '/' :: t =>
    if c = '\n' then none else some t
  | _ => none

/-- The optional group `(www\.)?` followed by `notion.so/`; greedy with
backtracking, though at most one alternative can ever succeed. -/
def notionHostAfterScheme (t : List Char) : Option (List Char) :=
  match t with
  | 'w' :: 'w' :: 'w' :: '.' :: u =>
    match matchNotionSo u with
    | some r => some r
    | none => matchNotionSo t
  | _ => matchNotionSo t

/-- Is `r.drop j` headed by 32 lowercase-hex characters, with the `(.+)`
prefix `r.take j` free of newlines? -/
def hexWindowAt (r : List Char) (j : Nat) : Bool :=
  let w := (r.drop j).take 32
  w.length == 32 && w.all isHexLower && (r.take j).all (fun c => c != '\n')

/-- Backtracking for `(.+)([0-9a-f]{32})`: `(.+)` is greedy, so the window
start is tried from the largest feasible index down to 1. -/
def findHexWindowAux : Nat → List Char → Option (List Char)
  | 0, _ => none
  | j + 1, r =>
    if hexWindowAt r (j + 1) then some ((r.drop (j + 1)).take 32)
    else findHexWindowAux j r

/-- Group 3 of the `url2uuid` regex applied to the text after `notion.so/`. -/
def findHexWindow32 (r : List Char) : Option (List Char) :=
  findHexWindowAux (r.length - 32) r

/-- Group 3 of `re.match(r'^https://(www\.)?notion.so/(.+)([0-9a-f]{32})', url)`. -/
def url2uuidMatch (url : List Char) : Option (List Char) :=
  match url with
  | 'h' :: 't' :: 't' :: 'p' :: 's' :: ':' :: '/' :: '/' :: t =>
    match notionHostAfterScheme t with
    | some r => findHexWindow32 r
    | none => none
  | _ => none

/-- The `8-4-4-4-12` dashed formatting of the 32 captured characters. -/
def dashUUID (id : List Char) : List Char :=
  id.take 8 ++ '-' :: ((id.drop 8).take 4) ++ '-' :: ((id.drop 12).take 4) ++
    '-' :: ((id.drop 16).take 4) ++ '-' :: ((id.drop 20).take 12)

/-- `url2uuid(url)`: the dashed id, or `''` when the regex does not match. -/
def url2uuid (url : List Char) : List Char :=
  match url2uuidMatch url with
  | none => []
  | some id => dashUUID id

/-! ### Specification-side helper definitions -/

/-- Does the head of the list (if any) falsify `P`?  Used to state that a
character run is maximal. -/
def headNot (P : Char → Bool) : List Char → Bool
  | [] => true
  | c :: _ => !P c

/-- A config whose `merge_paragraphs` string is empty (merging disabled). -/
def cfgUnmerged : ConfigM :=
  ⟨[], true, true, true, [], [], []⟩

/-- A config whose `merge_paragraphs` string is `"yes"` (merging enabled). -/
def cfgMergedDemo : ConfigM :=
  ⟨[], true, true, true, [], [], ("yes".toList)⟩

/-- A config whose `merge_paragraphs` string is `"false"`: still truthy. -/
def cfgFalseDemo : ConfigM :=
  ⟨[], true, true, true, [], [], ("false".toList)⟩

/-- A sample block used to instantiate batching statements. -/
def demoBlock : BlockRec :=
  ⟨BlockType.Paragraph, [RTChunk.plain []], none⟩

/-- A sample persisted root page. -/
def demoRoot : PageM :=
  ⟨("Notes").toList, [], ("rootid").toList, []⟩

/-- A sample note carrying one label. -/
def demoNote : NoteM :=
  ⟨("My note").toList, [("Work").toList]⟩

/-- An import state with an empty category map. -/
def demoState : ImportState :=
  ⟨[], [], 0⟩

/-- The category page created for label `"Work"` under `demoRoot`. -/
def demoWorkPage : PageM :=
  ⟨("Work").toList, demoRoot.id, idGen 0, []⟩

/-- An import state whose map already holds the `"Notes.Work"` page. -/
def demoStateWork : ImportState :=
  ⟨[(demoRoot.title ++ '.' :: ("Work").toList, demoWorkPage)], [demoWorkPage], 1⟩

/-! ### List helper lemmas -/

theorem takeWhile_append_eq (P : Char → Bool) (l₁ l₂ : List Char)
    (h₁ : ∀ c ∈ l₁, P c = true)
    (h₂ : ∀ c, l₂.head? = some c → P c = false) :
    (l₁ ++ l₂).takeWhile P = l₁ := by
  induction l₁ with
  | nil =>
    cases l₂ with
    | nil => rfl
    | cons c t => simp [List.takeWhile_cons, h₂ c rfl]
  | cons a l ih =>
    simp only [List.cons_append, List.takeWhile_cons, h₁ a (by simp)]
    simpa using ih (fun c hc => h₁ c (by simp [hc]))

theorem headNot_head? (P : Char → Bool) (l : List Char) (h : headNot P l = true) :
    ∀ c, l.head? = some c → P c = false := by
  intro c hc
  cases l with
  | nil => simp at hc
  | cons d t =>
    simp at hc
    subst hc
    simpa [headNot] using h

/-! ### Evaluation lemmas for the line matchers -/

theorem isPySpace_not_digit (c : Char) (h : isPySpace c = true) :
    c.isDigit = false := by
  simp only [isPySpace, Bool.or_eq_true, decide_eq_true_eq] at h
  rcases h with ((((h | h) | h) | h) | h) | h <;> subst h <;> decide

theorem wsGroup_eval (ws r : List Char)
    (hws : ws ≠ []) (hwsP : ∀ c ∈ ws, isPySpace c = true)
    (hr : r ≠ []) (hrh : ∀ c, r.head? = some c → isPySpace c = false)
    (hrn : ∀ c ∈ r, ¬c = '\n') :
    wsGroup (ws ++ r) = some r := by
  have htw : (ws ++ r).takeWhile isPySpace = ws :=
    takeWhile_append_eq _ _ _ hwsP hrh
  obtain ⟨a, ws2, rfl⟩ := List.exists_cons_of_ne_nil hws
  have hd : ((a :: ws2) ++ r).drop (ws2.length + 1) = r := by
    simp [List.drop_left (a :: ws2) r]
  have hg : r.takeWhile (fun c => c != '\n') = r := by
    apply List.takeWhile_eq_self_iff.mpr
    intro c hc
    simpa using hrn c hc
  unfold wsGroup
  rw [htw]
  show wsGroupAux (ws2.length + 1) ((a :: ws2) ++ r) = some r
  unfold wsGroupAux
  rw [hd, hg]
  simp [List.isEmpty_iff, hr]

theorem matchNumbered_eval (ds ws r : List Char)
    (hds : ds ≠ []) (hdsP : ∀ c ∈ ds, c.isDigit = true)
    (hws : ws ≠ []) (hwsP : ∀ c ∈ ws, isPySpace c = true)
    (hr : r ≠ []) (hrh : ∀ c, r.head? = some c → isPySpace c = false)
    (hrn : ∀ c ∈ r, ¬c = '\n') :
    matchNumbered (ds ++ '.' :: (ws ++ r)) = some r := by
  have htw : (ds ++ '.' :: (ws ++ r)).takeWhile Char.isDigit = ds := by
    apply takeWhile_append_eq _ _ _ hdsP
    intro c hc
    simp at hc
    subst hc
    decide
  have hd : (ds ++ '.' :: (ws ++ r)).drop ds.length = '.' :: (ws ++ r) :=
    List.drop_left _ _
  unfold matchNumbered
  rw [htw]
  simp only [hd, List.isEmpty_iff]
  simp [hds, wsGroup_eval ws r hws hwsP hr hrh hrn]

theorem matchNumbered_none_of_head (p : List Char)
    (h : ∀ c, p.head? = some c → c.isDigit = false) :
    matchNumbered p = none := by
  cases p with
  | nil => rfl
  | cons c t =>
    have hc := h c rfl
    simp [matchNumbered, List.takeWhile_cons, hc]

theorem matchBulleted_eval (ws0 : List Char) (mark : Char) (ws r : List Char)
    (hws0 : ∀ c ∈ ws0, isPySpace c = true) (hmark : mark = '*' ∨ mark = '-')
    (hws : ws ≠ []) (hwsP : ∀ c ∈ ws, isPySpace c = true)
    (hr : r ≠ []) (hrh : ∀ c, r.head? = some c → isPySpace c = false)
    (hrn : ∀ c ∈ r, ¬c = '\n') :
    matchBulleted (ws0 ++ mark :: (ws ++ r)) = some r := by
  have hmarkNotSpace : isPySpace mark = false := by
    rcases hmark with h | h <;> subst h <;> decide
  have htw : (ws0 ++ mark :: (ws ++ r)).takeWhile isPySpace = ws0 := by
    apply takeWhile_append_eq _ _ _ hws0
    intro c hc
    simp at hc
    subst hc
    exact hmarkNotSpace
  have hd : (ws0 ++ mark :: (ws ++ r)).drop ws0.length = mark :: (ws ++ r) :=
    List.drop_left _ _
  have hmarkEq : (mark = '*' || mark = '-') = true := by
    rcases hmark with h | h <;> subst h <;> decide
  unfold matchBulleted
  rw [htw]
  simp only [hd]
  simp [hmarkEq, wsGroup_eval ws r hws hwsP hr hrh hrn]

theorem matchBulleted_none_of_head (p : List Char)
    (h : ∀ c, p.head? = some c →
      isPySpace c = false ∧ (c = '*' || c = '-') = false) :
    matchBulleted p = none := by
  cases p with
  | nil => rfl
  | cons c t =>
    obtain ⟨h1, h2⟩ := h c rfl
    simp [matchBulleted, List.takeWhile_cons, h1, h2]

theorem matchQuote_eval (ws r : List Char)
    (hws : ws ≠ []) (hwsP : ∀ c ∈ ws, isPySpace c = true)
    (hr : r ≠ []) (hrh : ∀ c, r.head? = some c → isPySpace c = false)
    (hrn : ∀ c ∈ r, ¬c = '\n') :
    matchQuote ('>' :: (ws ++ r)) = some r := by
  simp [matchQuote, wsGroup_eval ws r hws hwsP hr hrh hrn]

theorem parseBlock_empty : parseBlock [] = ⟨BlockType.Paragraph, []⟩ := rfl

theorem parseBlock_of_type_paragraph (p : List Char)
    (h : (parseBlock p).type = BlockType.Paragraph) :
    parseBlock p = ⟨BlockType.Paragraph, p⟩ := by
  unfold parseBlock at h ⊢
  cases h1 : matchNumbered p with
  | some t => simp [h1] at h
  | none =>
    simp only [h1] at h ⊢
    cases h2 : matchBulleted p with
    | some t => simp [h2] at h
    | none =>
      simp only [h2] at h ⊢
      cases h3 : matchQuote p with
      | some t => simp [h3] at h
      | none => simp only [h3]

/-- C3: `parseBlock` applies the classification rules in priority order: a
line of shape `digits "." whitespace rest` is a NumberedListItem carrying
`rest`; otherwise `whitespace* ("*"|"-") whitespace rest` is a
BulletedListItem carrying `rest`; otherwise `">" whitespace rest` is a Quote
carrying `rest`; any other line, the empty line included, is a Paragraph
carrying the line verbatim.  (The decompositions are stated in the canonical
form in which each captured `rest` is non-empty, does not start with further
whitespace and contains no newline, matching the greedy `\s+(.+)` capture.) -/
theorem C3_parseBlock_classification :
    (∀ ds ws r : List Char, ds ≠ [] → ds.all Char.isDigit = true →
      ws ≠ [] → ws.all isPySpace = true →
      r ≠ [] → headNot isPySpace r = true → r.all (fun c => c != '\n') = true →
      parseBlock (ds ++ '.' :: (ws ++ r)) = ⟨BlockType.NumberedListItem, r⟩)
  ∧ (∀ (ws0 : List Char) (mark : Char) (ws r : List Char),
      ws0.all isPySpace = true → (mark = '*' ∨ mark = '-') →
      ws ≠ [] → ws.all isPySpace = true →
      r ≠ [] → headNot isPySpace r = true → r.all (fun c => c != '\n') = true →
      parseBlock (ws0 ++ mark :: (ws ++ r)) = ⟨BlockType.BulletedListItem, r⟩)
  ∧ (∀ ws r : List Char, ws ≠ [] → ws.all isPySpace = true →
      r ≠ [] → headNot isPySpace r = true → r.all (fun c => c != '\n') = true →
      parseBlock ('>' :: (ws ++ r)) = ⟨BlockType.Quote, r⟩)
  ∧ (∀ p : List Char, matchNumbered p = none → matchBulleted p = none →
      matchQuote p = none → parseBlock p = ⟨BlockType.Paragraph, p⟩)
  ∧ parseBlock [] = ⟨BlockType.Paragraph, []⟩ := by
  have allConv : ∀ (P : Char → Bool) (l : List Char), l.all P = true →
      ∀ c ∈ l, P c = true := by
    intro P l h c hc
    exact List.all_eq_true.mp h c hc
  have neConv : ∀ l : List Char, l.all (fun c => c != '\n') = true →
      ∀ c ∈ l, ¬c = '\n' := by
    intro l h c hc
    simpa using List.all_eq_true.mp h c hc
  refine ⟨?_, ?_, ?_, ?_, rfl⟩
  · intro ds ws r hds hdsP hws hwsP hr hrh hrn
    have hnum := matchNumbered_eval ds ws r hds (allConv _ _ hdsP) hws
      (allConv _ _ hwsP) hr (headNot_head? _ _ hrh) (neConv _ hrn)
    unfold parseBlock
    rw [hnum]
  · intro ws0 mark ws r hws0 hmark hws hwsP hr hrh hrn
    have hnone : matchNumbered (ws0 ++ mark :: (ws ++ r)) = none := by
      apply matchNumbered_none_of_head
      intro c hc
      cases ws0 with
      | nil =>
        simp at hc
        subst hc
        rcases hmark with h | h <;> subst h <;> decide
      | cons a t =>
        simp at hc
        subst hc
        exact isPySpace_not_digit a (allConv _ _ hws0 a (by simp))
    have hbul := matchBulleted_eval ws0 mark ws r (allConv _ _ hws0) hmark hws
      (allConv _ _ hwsP) hr (headNot_head? _ _ hrh) (neConv _ hrn)
    unfold parseBlock
    rw [hnone, hbul]
  · intro ws r hws hwsP hr hrh hrn
    have hnone : matchNumbered ('>' :: (ws ++ r)) = none := by
      apply matchNumbered_none_of_head
      intro c hc
      simp at hc
      subst hc
      decide
    have hnone2 : matchBulleted ('>' :: (ws ++ r)) = none := by
      apply matchBulleted_none_of_head
      intro c hc
      simp at hc
      subst hc
      exact ⟨by decide, by decide⟩
    have hq := matchQuote_eval ws r hws (allConv _ _ hwsP) hr
      (headNot_head? _ _ hrh) (neConv _ hrn)
    unfold parseBlock
    rw [hnone, hnone2, hq]
  · intro p h1 h2 h3
    unfold parseBlock
    rw [h1, h2, h3]

/-- Witness for C3 at concrete lines of each of the four shapes. -/
theorem C3_parseBlock_classification_witness :
    parseBlock (("1. first").toList) =
      ⟨BlockType.NumberedListItem, ("first").toList⟩ ∧
    parseBlock (("  - item").toList) =
      ⟨BlockType.BulletedListItem, ("item").toList⟩ ∧
    parseBlock (("> q").toList) = ⟨BlockType.Quote, ("q").toList⟩ ∧
    parseBlock (("plain").toList) = ⟨BlockType.Paragraph, ("plain").toList⟩ := by
  refine ⟨?_, ?_, ?_, ?_⟩
  · have h := C3_parseBlock_classification.1 ['1'] [' '] (("first").toList)
      (by decide) (by decide) (by decide) (by decide) (by decide) (by decide) (by decide)
    exact h
  · have h := C3_parseBlock_classification.2.1 [' ', ' '] '-' [' '] (("item").toList)
      (by decide) (Or.inr rfl) (by decide) (by decide) (by decide) (by decide) (by decide)
    exact h
  · have h := C3_parseBlock_classification.2.2.1 [' '] (("q").toList)
      (by decide) (by decide) (by decide) (by decide) (by decide)
    exact h
  · exact C3_parseBlock_classification.2.2.2.1 (("plain").toList)
      (by decide) (by decide) (by decide)

/-! ### splitlines lemmas -/

theorem splitlinesGo_nil (cur : List Char) : splitlinesGo cur [] = [cur] := by
  unfold splitlinesGo
  rfl

theorem splitlinesGo_regular (cur : List Char) (x : Char) (t : List Char)
    (hxr : ¬x = '\r') (hx : isLineBreakChar x = false) :
    splitlinesGo cur (x :: t) = splitlinesGo (cur ++ [x]) t := by
  conv_lhs => unfold splitlinesGo
  rw [if_neg hxr, if_neg (by simp [hx])]

theorem splitlinesGo_nl_nil (cur : List Char) : splitlinesGo cur ['\n'] = [cur] := by
  conv_lhs => unfold splitlinesGo
  rw [if_neg (by decide), if_pos (by decide)]

theorem splitlinesGo_nl_cons (cur : List Char) (d : Char) (u : List Char) :
    splitlinesGo cur ('\n' :: d :: u) = cur :: splitlinesGo [] (d :: u) := by
  conv_lhs => unfold splitlinesGo
  rw [if_neg (by decide), if_pos (by decide)]

theorem splitlinesGo_break_free (a : List Char)
    (ha : ∀ c ∈ a, isLineBreakChar c = false) :
    ∀ cur : List Char, splitlinesGo cur a = [cur ++ a] := by
  induction a with
  | nil => intro cur; rw [splitlinesGo_nil]; simp
  | cons x t ih =>
    intro cur
    have hx : isLineBreakChar x = false := ha x (by simp)
    have hxr : ¬x = '\r' := by
      intro h
      subst h
      exact absurd hx (by decide)
    rw [splitlinesGo_regular cur x t hxr hx]
    rw [ih (fun c hc => ha c (by simp [hc])) (cur ++ [x])]
    simp

theorem splitlinesGo_append (a b : List Char)
    (ha : ∀ c ∈ a, isLineBreakChar c = false) :
    ∀ cur : List Char, splitlinesGo cur (a ++ '\n' :: b) = (cur ++ a) :: splitlines b := by
  induction a with
  | nil =>
    intro cur
    cases b with
    | nil => rw [List.nil_append, splitlinesGo_nl_nil]; simp [splitlines]
    | cons d u => rw [List.nil_append, splitlinesGo_nl_cons]; simp [splitlines]
  | cons x t ih =>
    intro cur
    have hx : isLineBreakChar x = false := ha x (by simp)
    have hxr : ¬x = '\r' := by
      intro h
      subst h
      exact absurd hx (by decide)
    rw [List.cons_append, splitlinesGo_regular cur x (t ++ '\n' :: b) hxr hx]
    rw [ih (fun c hc => ha c (by simp [hc])) (cur ++ [x])]
    simp

theorem splitlines_break_free (a : List Char) (hne : a ≠ [])
    (ha : ∀ c ∈ a, isLineBreakChar c = false) : splitlines a = [a] := by
  cases a with
  | nil => exact absurd rfl hne
  | cons c t =>
    rw [splitlines]
    rw [splitlinesGo_break_free (c :: t) ha []]
    simp

theorem splitlines_append (a b : List Char)
    (ha : ∀ c ∈ a, isLineBreakChar c = false) :
    splitlines (a ++ '\n' :: b) = a :: splitlines b := by
  cases a with
  | nil =>
    rw [List.nil_append, splitlines]
    cases b with
    | nil => rw [splitlinesGo_nl_nil]; rfl
    | cons d u => rw [splitlinesGo_nl_cons]; rfl
  | cons x t =>
    rw [List.cons_append, splitlines]
    rw [show (x :: (t ++ '\n' :: b)) = (x :: t) ++ '\n' :: b from rfl]
    rw [splitlinesGo_append (x :: t) b ha []]
    simp

/-! ### Step lemmas for the parseTextToPage loop -/

theorem pttpGo_unmerged (lastB : Option ParsedBlock) (p : List Char)
    (rest : List (List Char)) :
    pttpGo false lastB (p :: rest) = parseBlock p :: pttpGo false lastB rest := by
  simp [pttpGo]

theorem pttpGo_merge_none (p : List Char) (rest : List (List Char)) :
    pttpGo true none (p :: rest) = pttpGo true (some (parseBlock p)) rest := by
  simp [pttpGo]

theorem pttpGo_merge_hit_mid (lb : ParsedBlock) (p : List Char)
    (rest : List (List Char))
    (hC : lb.type = BlockType.Paragraph ∧ lb.type = (parseBlock p).type ∧
      lb.text.length + (parseBlock p).text.length < 2000)
    (hrest : rest ≠ []) :
    pttpGo true (some lb) (p :: rest) =
      pttpGo true (some ⟨lb.type, lb.text ++ '\n' :: (parseBlock p).text⟩) rest := by
  have hre : rest.isEmpty = false := by
    cases rest with
    | nil => exact absurd rfl hrest
    | cons x xs => rfl
  simp only [pttpGo]
  rw [if_neg (by simp), if_pos hC, hre]
  simp

theorem pttpGo_merge_hit_last (lb : ParsedBlock) (p : List Char)
    (hC : lb.type = BlockType.Paragraph ∧ lb.type = (parseBlock p).type ∧
      lb.text.length + (parseBlock p).text.length < 2000) :
    pttpGo true (some lb) [p] =
      [⟨lb.type, lb.text ++ '\n' :: (parseBlock p).text⟩] := by
  simp only [pttpGo]
  rw [if_neg (by simp), if_pos hC]
  simp [pttpGo]

theorem pttpGo_merge_miss (lb : ParsedBlock) (p : List Char)
    (rest : List (List Char))
    (hC : ¬(lb.type = BlockType.Paragraph ∧ lb.type = (parseBlock p).type ∧
      lb.text.length + (parseBlock p).text.length < 2000)) :
    pttpGo true (some lb) (p :: rest) =
      lb :: pttpGo true (some (parseBlock p)) rest := by
  simp only [pttpGo]
  rw [if_neg (by simp), if_neg hC]

/-! ### Claims C1, C2 and C10 -/

/-- C1 counterexample: with merging disabled, the body
`"1. first\n- second\n> third\nplain"` does NOT produce exactly the four
claimed blocks: the synthetic trailing empty line is also emitted. -/
theorem C1_counterexample :
    parseTextToPageBlocks (("1. first\n- second\n> third\nplain").toList)
        cfgUnmerged ≠
      [⟨BlockType.NumberedListItem, ("first").toList⟩,
       ⟨BlockType.BulletedListItem, ("second").toList⟩,
       ⟨BlockType.Quote, ("third").toList⟩,
       ⟨BlockType.Paragraph, ("plain").toList⟩] := by
  decide

/-- C1 (amended): with merging disabled the body
`"1. first\n- second\n> third\nplain"` appends exactly five blocks:
NumberedListItem "first", BulletedListItem "second", Quote "third",
Paragraph "plain", and a trailing empty Paragraph coming from the synthetic
empty line that `parseTextToPage` appends before processing. -/
theorem C1_amended_block_sequence :
    parseTextToPageBlocks (("1. first\n- second\n> third\nplain").toList)
        cfgUnmerged =
      [⟨BlockType.NumberedListItem, ("first").toList⟩,
       ⟨BlockType.BulletedListItem, ("second").toList⟩,
       ⟨BlockType.Quote, ("third").toList⟩,
       ⟨BlockType.Paragraph, ("plain").toList⟩,
       ⟨BlockType.Paragraph, []⟩] ∧
    (parseTextToPage (("1. first\n- second\n> third\nplain").toList)
        (PageM.mkPage ("Note").toList []) cfgUnmerged).children =
      [⟨BlockType.NumberedListItem, [RTChunk.plain (("first").toList)], none⟩,
       ⟨BlockType.BulletedListItem, [RTChunk.plain (("second").toList)], none⟩,
       ⟨BlockType.Quote, [RTChunk.plain (("third").toList)], none⟩,
       ⟨BlockType.Paragraph, [RTChunk.plain (("plain").toList)], none⟩,
       ⟨BlockType.Paragraph, [RTChunk.plain []], none⟩] := by
  constructor
  · decide
  · decide

/-- C2 counterexample: with merging enabled, the two paragraph lines of
`"a\nb"` are merged into ONE block, but its content is `"a\nb\n"` (the
synthetic trailing empty line is merged in as well), not `"a\nb"`. -/
theorem C2_counterexample :
    parseTextToPageBlocks (("a\nb").toList) cfgMergedDemo ≠
      [⟨BlockType.Paragraph, ("a\nb").toList⟩] := by
  decide

/-- C2 (amended): with merging enabled, for paragraph-classified newline-free
lines `a` and `b` (`b` non-empty), if `a.length + b.length + 1 < 2000` the
whole body `a ++ "\n" ++ b` becomes one Paragraph block with content
`a ++ "\n" ++ b ++ "\n"` (the claimed `"a\nb"` plus a trailing newline
absorbed from the synthetic final line); reaching the cap
(`a.length + b.length ≥ 2000`) forces the lines into two separate blocks, and
an intervening non-Paragraph line `m` likewise keeps `a`, `m` and `b` in
three separate blocks. -/
theorem C2_amended_merge :
    ∀ a b : List Char,
      (parseBlock a).type = BlockType.Paragraph →
      (parseBlock b).type = BlockType.Paragraph →
      a.all (fun c => !isLineBreakChar c) = true →
      b.all (fun c => !isLineBreakChar c) = true →
      b ≠ [] →
      ∀ cfg : ConfigM, cfg.merge_paragraphs.isEmpty = false →
      (a.length + b.length + 1 < 2000 →
        parseTextToPageBlocks (a ++ '\n' :: b) cfg =
          [⟨BlockType.Paragraph, a ++ '\n' :: (b ++ ['\n'])⟩])
      ∧ (2000 ≤ a.length + b.length →
        parseTextToPageBlocks (a ++ '\n' :: b) cfg =
          [⟨BlockType.Paragraph, a⟩,
           ⟨BlockType.Paragraph, if b.length < 2000 then b ++ ['\n'] else b⟩])
      ∧ (∀ m : List Char, (parseBlock m).type ≠ BlockType.Paragraph →
          m.all (fun c => !isLineBreakChar c) = true →
          parseTextToPageBlocks (a ++ '\n' :: (m ++ '\n' :: b)) cfg =
            [⟨BlockType.Paragraph, a⟩, parseBlock m,
             ⟨BlockType.Paragraph, if b.length < 2000 then b ++ ['\n'] else b⟩]) := by
  intro a b hpa hpb hba hbb hbne cfg hcfg
  have pa := parseBlock_of_type_paragraph a hpa
  have pb := parseBlock_of_type_paragraph b hpb
  have hano : ∀ c ∈ a, isLineBreakChar c = false := by
    intro c hc
    simpa using List.all_eq_true.mp hba c hc
  have hbno : ∀ c ∈ b, isLineBreakChar c = false := by
    intro c hc
    simpa using List.all_eq_true.mp hbb c hc
  have hmode : (!cfg.merge_paragraphs.isEmpty) = true := by
    rw [hcfg]
    rfl
  refine ⟨?_, ?_, ?_⟩
  · intro hlen
    have hlines : splitlines (a ++ '\n' :: b) ++ [[]] = [a, b, []] := by
      rw [splitlines_append a b hano, splitlines_break_free b hbne hbno]
      rfl
    rw [parseTextToPageBlocks, hmode, hlines]
    rw [pttpGo_merge_none a [b, []], pa]
    rw [pttpGo_merge_hit_mid ⟨BlockType.Paragraph, a⟩ b [[]]
      ⟨rfl, by rw [pb], by rw [pb]; show a.length + b.length < 2000; omega⟩ (by simp)]
    rw [pb]
    rw [pttpGo_merge_hit_last ⟨BlockType.Paragraph, a ++ '\n' :: b⟩ []
      ⟨rfl, by rw [parseBlock_empty],
        by rw [parseBlock_empty]; show (a ++ '\n' :: b).length + List.length [] < 2000;
           simp only [List.length_append, List.length_cons, List.length_nil]; omega⟩]
    rw [parseBlock_empty]
    simp
  · intro hlen
    have hlines : splitlines (a ++ '\n' :: b) ++ [[]] = [a, b, []] := by
      rw [splitlines_append a b hano, splitlines_break_free b hbne hbno]
      rfl
    rw [parseTextToPageBlocks, hmode, hlines]
    rw [pttpGo_merge_none a [b, []], pa]
    rw [pttpGo_merge_miss ⟨BlockType.Paragraph, a⟩ b [[]]
      (by rw [pb]; rintro ⟨-, -, h3⟩; simp at h3; omega)]
    rw [pb]
    by_cases hb2 : b.length < 2000
    · rw [pttpGo_merge_hit_last ⟨BlockType.Paragraph, b⟩ []
        ⟨rfl, by rw [parseBlock_empty], by rw [parseBlock_empty]; simpa using hb2⟩]
      rw [parseBlock_empty, if_pos hb2]
    · rw [pttpGo_merge_miss ⟨BlockType.Paragraph, b⟩ [] []
        (by rw [parseBlock_empty]; rintro ⟨-, -, h3⟩; simp at h3; omega)]
      rw [if_neg hb2]
      simp [pttpGo]
  · intro m hpm hbm
    have hmno : ∀ c ∈ m, isLineBreakChar c = false := by
      intro c hc
      simpa using List.all_eq_true.mp hbm c hc
    have hlines : splitlines (a ++ '\n' :: (m ++ '\n' :: b)) ++ [[]] = [a, m, b, []] := by
      rw [splitlines_append a (m ++ '\n' :: b) hano, splitlines_append m b hmno,
        splitlines_break_free b hbne hbno]
      rfl
    rw [parseTextToPageBlocks, hmode, hlines]
    rw [pttpGo_merge_none a [m, b, []], pa]
    rw [pttpGo_merge_miss ⟨BlockType.Paragraph, a⟩ m [b, []]
      (by rintro ⟨-, h2, -⟩; exact hpm h2.symm)]
    rw [pttpGo_merge_miss (parseBlock m) b [[]]
      (by rintro ⟨h1, -, -⟩; exact hpm h1)]
    rw [pb]
    by_cases hb2 : b.length < 2000
    · rw [pttpGo_merge_hit_last ⟨BlockType.Paragraph, b⟩ []
        ⟨rfl, by rw [parseBlock_empty], by rw [parseBlock_empty]; simpa using hb2⟩]
      rw [parseBlock_empty, if_pos hb2]
    · rw [pttpGo_merge_miss ⟨BlockType.Paragraph, b⟩ [] []
        (by rw [parseBlock_empty]; rintro ⟨-, -, h3⟩; simp at h3; omega)]
      rw [if_neg hb2]
      simp [pttpGo]

/-- Witness for C2 (amended) at `a = "a"`, `b = "b"` with merging enabled. -/
theorem C2_amended_merge_witness :
    parseTextToPageBlocks (("a\nb").toList) cfgMergedDemo =
      [⟨BlockType.Paragraph, ("a\nb\n").toList⟩] := by
  have h := (C2_amended_merge ['a'] ['b'] (by decide) (by decide) (by decide)
    (by decide) (by decide) cfgMergedDemo (by decide)).1 (by decide)
  exact h

/-- C10: `Config` keeps `merge_paragraphs` as the raw string (no boolean
conversion, unlike the three `[gkeep]` toggles, which are lowercased and
compared with `"true"`), and `parseTextToPage` treats every non-empty
string (the string `"false"` included) as merged mode, the empty string as
unmerged mode; the output depends on the string only through emptiness. -/
theorem C10_merge_paragraphs_raw :
    (∀ ini : IniData, (configOfIni ini).merge_paragraphs = ini.notion_merge_paragraphs)
  ∧ (∀ ini : IniData,
      (configOfIni ini).import_notes = (lowerStr ini.gkeep_import_notes == ("true").toList) ∧
      (configOfIni ini).import_todos = (lowerStr ini.gkeep_import_todos == ("true").toList) ∧
      (configOfIni ini).import_media = (lowerStr ini.gkeep_import_media == ("true").toList))
  ∧ (∀ (cfg1 cfg2 : ConfigM) (t : List Char),
      cfg1.merge_paragraphs.isEmpty = cfg2.merge_paragraphs.isEmpty →
      parseTextToPageBlocks t cfg1 = parseTextToPageBlocks t cfg2)
  ∧ parseTextToPageBlocks (("a\nb").toList) cfgFalseDemo =
      [⟨BlockType.Paragraph, ("a\nb\n").toList⟩]
  ∧ parseTextToPageBlocks (("a\nb").toList) cfgUnmerged =
      [⟨BlockType.Paragraph, ['a']⟩, ⟨BlockType.Paragraph, ['b']⟩,
       ⟨BlockType.Paragraph, []⟩] := by
  refine ⟨fun ini => rfl, fun ini => ⟨rfl, rfl, rfl⟩, ?_, by decide, by decide⟩
  intro cfg1 cfg2 t h
  rw [parseTextToPageBlocks, parseTextToPageBlocks, h]

/-- Witness for C10: two configs with distinct non-empty `merge_paragraphs`
strings produce identical output. -/
theorem C10_merge_paragraphs_raw_witness :
    parseTextToPageBlocks (("x\ny").toList) cfgFalseDemo =
      parseTextToPageBlocks (("x\ny").toList) cfgMergedDemo :=
  C10_merge_paragraphs_raw.2.2.1 cfgFalseDemo cfgMergedDemo (("x\ny").toList) (by decide)

/-! ### RichText lemmas (claim C4) -/

theorem urlSplitAux_ne_nil (fuel : Nat) (s : List Char) : urlSplitAux fuel s ≠ [] := by
  cases fuel with
  | zero => simp [urlSplitAux]
  | succ n =>
    unfold urlSplitAux
    cases h : findURLFrom s with
    | none => simp
    | some pr => simp

theorem urlSplit_of_none (s : List Char) (h : findURLFrom s = none) :
    urlSplit s = [s] := by
  unfold urlSplit
  cases hl : s.length with
  | zero => rfl
  | succ n => simp [urlSplitAux, h]

theorem findURLFrom_none_matchAt (s : List Char) (h : findURLFrom s = none) :
    matchURLAt s = none := by
  cases s with
  | nil => rfl
  | cons c t =>
    cases hm : matchURLAt (c :: t) with
    | none => rfl
    | some pr =>
      obtain ⟨m, rest⟩ := pr
      rw [findURLFrom, hm] at h
      simp at h

theorem isLowerAZ_isHostChar (c : Char) (h : isLowerAZ c = true) :
    isHostChar c = true := by
  have hc : c.isLower = true := by simpa [isLowerAZ] using h
  simp [isHostChar, isWordChar, Char.isAlphanum, Char.isAlpha, hc]

theorem lds_isSome_cons (c : Char) (t : List Char)
    (h : (lastDotSplit t).isSome = true) :
    (lastDotSplit (c :: t)).isSome = true := by
  cases t with
  | nil => simp [lastDotSplit] at h
  | cons d u =>
    rw [lastDotSplit]
    cases hl : lastDotSplit (d :: u) with
    | none => rw [hl] at h; simp at h
    | some pr =>
      obtain ⟨a, b⟩ := pr
      simp

theorem lds_isSome_base (c d : Char) (u : List Char) (hd : d = '.')
    (hu : headIsLower u = true) :
    (lastDotSplit (c :: d :: u)).isSome = true := by
  rw [lastDotSplit]
  cases hl : lastDotSplit (d :: u) with
  | none => simp [hd, hu]
  | some pr =>
    obtain ⟨a, b⟩ := pr
    simp

theorem tailOkTld_head (u : List Char) (h : tailOkTld u = true) :
    ∃ l u2, u = l :: u2 ∧ isLowerAZ l = true := by
  cases u with
  | nil => simp [tailOkTld] at h
  | cons l u2 =>
    refine ⟨l, u2, rfl, ?_⟩
    cases hl : isLowerAZ l with
    | true => rfl
    | false => simp [tailOkTld, List.takeWhile_cons, hl] at h

theorem hostDotScan_lds (t : List Char) : ∀ c, isHostChar c = true →
    hostDotScan t = true →
    (lastDotSplit (c :: t.takeWhile isHostChar)).isSome = true := by
  induction t with
  | nil =>
    intro c hc h
    simp [hostDotScan] at h
  | cons d u ih =>
    intro c hc h
    rw [hostDotScan, Bool.or_eq_true, Bool.and_eq_true, Bool.and_eq_true] at h
    rcases h with ⟨hd, hTail⟩ | ⟨hdHost, hScan⟩
    · have hd' : d = '.' := by simpa using hd
      obtain ⟨l, u2, rfl, hl⟩ := tailOkTld_head u hTail
      subst hd'
      rw [List.takeWhile_cons]
      rw [if_pos (by decide : isHostChar '.' = true)]
      rw [List.takeWhile_cons]
      rw [if_pos (isLowerAZ_isHostChar l hl)]
      exact lds_isSome_base c '.' (l :: u2.takeWhile isHostChar) rfl
        (by simpa [headIsLower] using hl)
    · have ihres := ih d hdHost hScan
      rw [List.takeWhile_cons, if_pos hdHost]
      exact lds_isSome_cons c _ ihres

theorem fullmatch_matchAt (s : List Char) (h : fullmatchURL s = true) :
    (matchURLAt s).isSome = true := by
  unfold fullmatchURL at h
  cases hs : stripScheme s with
  | none => rw [hs] at h; simp at h
  | some pr =>
    obtain ⟨sch, t⟩ := pr
    rw [hs] at h
    cases t with
    | nil => simp at h
    | cons c t2 =>
      rw [Bool.and_eq_true] at h
      obtain ⟨hc, hscan⟩ := h
      have hlds := hostDotScan_lds t2 c hc hscan
      unfold matchURLAt
      simp only [hs]
      rw [List.takeWhile_cons, if_pos hc]
      cases hl : lastDotSplit (c :: t2.takeWhile isHostChar) with
      | none => rw [hl] at hlds; simp at hlds
      | some pr2 =>
        obtain ⟨a, b⟩ := pr2
        simp

theorem fullmatch_false_of_no_match (s : List Char) (h : findURLFrom s = none) :
    fullmatchURL s = false := by
  cases hf : fullmatchURL s with
  | false => rfl
  | true =>
    have hm := fullmatch_matchAt s hf
    rw [findURLFrom_none_matchAt s h] at hm
    simp at hm

/-- C4: on input containing no URL match, `RichText._parse` produces exactly
one plain chunk carrying the whole input; on
`"see http://a.com/x here"` it produces exactly three chunks: plain
`"see "`, a link whose display text and target are both
`"http://a.com/x"`, and plain `" here"`. -/
theorem C4_richtext_segments :
    (∀ s : List Char, findURLFrom s = none →
      richTextChunks s = [RTChunk.plain s])
  ∧ richTextChunks (("see http://a.com/x here").toList) =
      [RTChunk.plain (("see ").toList),
       RTChunk.link (("http://a.com/x").toList) (("http://a.com/x").toList),
       RTChunk.plain ((" here").toList)] := by
  constructor
  · intro s h
    unfold richTextChunks
    rw [urlSplit_of_none s h]
    simp [fullmatch_false_of_no_match s h]
  · decide

/-- Witness for C4 at the URL-free input `"hello"`. -/
theorem C4_richtext_segments_witness :
    richTextChunks (("hello").toList) = [RTChunk.plain (("hello").toList)] :=
  C4_richtext_segments.1 (("hello").toList) (by decide)

/-! ### url2uuid lemmas (claim C5) -/

theorem findHexWindow32_eval (m hx : List Char) (hm : m ≠ [])
    (hmn : ∀ c ∈ m, (c != '\n') = true) (hl : hx.length = 32)
    (hh : hx.all isHexLower = true) :
    findHexWindow32 (m ++ hx) = some hx := by
  obtain ⟨a, m2, rfl⟩ := List.exists_cons_of_ne_nil hm
  have hdrop : ((a :: m2) ++ hx).drop (m2.length + 1) = hx := by
    simp [List.drop_left (a :: m2) hx]
  have htake : ((a :: m2) ++ hx).take (m2.length + 1) = a :: m2 := by
    simp [List.take_left (a :: m2) hx]
  have htx : hx.take 32 = hx := List.take_of_length_le (le_of_eq hl)
  have hw : hexWindowAt ((a :: m2) ++ hx) (m2.length + 1) = true := by
    unfold hexWindowAt
    rw [hdrop, htake, htx]
    simp [hl, hh]
    refine ⟨by simpa using hmn a (by simp), fun x hx2 => by simpa using hmn x (by simp [hx2])⟩
  have hlen : ((a :: m2) ++ hx).length - 32 = m2.length + 1 := by
    simp [hl]
  unfold findHexWindow32
  rw [hlen]
  unfold findHexWindowAux
  rw [hw]
  simp [hdrop, htx]

/-- C5 counterexample: the URL `"https://notion.so/x" ++ 32*'a' ++ "zz"` is
malformed in the claim's sense (its trailing 32 characters are not all
lowercase hex), yet `url2uuid` returns a non-empty dashed id extracted from
the hex window that ends before the `"zz"` tail, not the empty string. -/
theorem C5_counterexample :
    url2uuid (("https://notion.so/x").toList ++ (List.replicate 32 'a' ++ ("zz").toList)) =
      ("aaaaaaaa-aaaa-aaaa-aaaa-aaaaaaaaaaaa").toList ∧
    ("aaaaaaaa-aaaa-aaaa-aaaa-aaaaaaaaaaaa").toList ≠ ([] : List Char) ∧
    (let url := ("https://notion.so/x").toList ++ (List.replicate 32 'a' ++ ("zz").toList);
      (url.drop (url.length - 32)).all isHexLower) = false := by
  refine ⟨by decide, by decide, by decide⟩

/-- C5 (amended): for a well-formed root URL -- an `https://notion.so/` or
`https://www.notion.so/` prefix, at least one further (non-newline)
character, then 32 lowercase-hex characters at the very end -- `url2uuid`
returns those 32 characters in dashed `8-4-4-4-12` form; when the regex
finds no match at all `url2uuid` returns the empty string, and whenever it
does match (even with the hex window not at the tail, as in the
counterexample) the result is non-empty. -/
theorem C5_amended_url2uuid :
    (∀ m hx : List Char, m ≠ [] → m.all (fun c => c != '\n') = true →
      hx.length = 32 → hx.all isHexLower = true →
      url2uuid (("https://notion.so/").toList ++ (m ++ hx)) = dashUUID hx)
  ∧ (∀ m hx : List Char, m ≠ [] → m.all (fun c => c != '\n') = true →
      hx.length = 32 → hx.all isHexLower = true →
      url2uuid (("https://www.notion.so/").toList ++ (m ++ hx)) = dashUUID hx)
  ∧ (∀ url : List Char, url2uuidMatch url = none → url2uuid url = [])
  ∧ (∀ url g : List Char, url2uuidMatch url = some g → url2uuid url ≠ []) := by
  have hmn' : ∀ m : List Char, m.all (fun c => c != '\n') = true →
      ∀ c ∈ m, (c != '\n') = true := by
    intro m h c hc
    exact List.all_eq_true.mp h c hc
  refine ⟨?_, ?_, ?_, ?_⟩
  · intro m hx hm hmn hl hh
    have hpre : ("https://notion.so/").toList =
        'h' :: 't' :: 't' :: 'p' :: 's' :: ':' :: '/' :: '/' ::
        'n' :: 'o' :: 't' :: 'i' :: 'o' :: 'n' :: '.' :: 's' :: 'o' :: '/' :: [] := rfl
    rw [hpre]
    simp only [List.cons_append, List.nil_append]
    have h1 : url2uuidMatch
        ('h' :: 't' :: 't' :: 'p' :: 's' :: ':' :: '/' :: '/' ::
         'n' :: 'o' :: 't' :: 'i' :: 'o' :: 'n' :: '.' :: 's' :: 'o' :: '/' :: (m ++ hx)) =
        findHexWindow32 (m ++ hx) := rfl
    have h2 : findHexWindow32 (m ++ hx) = some hx :=
      findHexWindow32_eval m hx hm (hmn' m hmn) hl hh
    simp only [url2uuid, h1, h2]
  · intro m hx hm hmn hl hh
    have hpre : ("https://www.notion.so/").toList =
        'h' :: 't' :: 't' :: 'p' :: 's' :: ':' :: '/' :: '/' ::
        'w' :: 'w' :: 'w' :: '.' ::
        'n' :: 'o' :: 't' :: 'i' :: 'o' :: 'n' :: '.' :: 's' :: 'o' :: '/' :: [] := rfl
    rw [hpre]
    simp only [List.cons_append, List.nil_append]
    have h1 : url2uuidMatch
        ('h' :: 't' :: 't' :: 'p' :: 's' :: ':' :: '/' :: '/' ::
         'w' :: 'w' :: 'w' :: '.' ::
         'n' :: 'o' :: 't' :: 'i' :: 'o' :: 'n' :: '.' :: 's' :: 'o' :: '/' :: (m ++ hx)) =
        findHexWindow32 (m ++ hx) := rfl
    have h2 : findHexWindow32 (m ++ hx) = some hx :=
      findHexWindow32_eval m hx hm (hmn' m hmn) hl hh
    simp only [url2uuid, h1, h2]
  · intro url h
    simp only [url2uuid, h]
  · intro url g h
    simp only [url2uuid, h]
    simp [dashUUID]

/-- Witness for C5 (amended) at `m = "x"`, 32 `'a'` characters. -/
theorem C5_amended_url2uuid_witness :
    url2uuid (("https://notion.so/").toList ++ (['x'] ++ List.replicate 32 'a')) =
      dashUUID (List.replicate 32 'a') :=
  C5_amended_url2uuid.1 ['x'] (List.replicate 32 'a')
    (by decide) (by decide) (by decide) (by decide)

/-! ### Claim C6: category resolution -/

/-- C6: a note with an empty label set is parented directly under the root
(state untouched); the first note with first label `L` under root `R`
persists exactly one new child page titled `L` under `R` (appended to the
`created` log) and records it in the map under key `R.title ++ "." ++ L`;
any later note with the same key reuses the recorded page without touching
the state; and an entry once present is never remapped to another page. -/
theorem C6_importPageWithCategories :
    (∀ (note : NoteM) (root : PageM) (st : ImportState), note.labels = [] →
      importPageWithCategoriesM note root st = (PageM.mkPage note.title root.id, st))
  ∧ (∀ (note : NoteM) (root : PageM) (st : ImportState) (L : List Char)
      (rest : List (List Char)), note.labels = L :: rest →
      catLookup (root.title ++ '.' :: L) st.categories = none →
      importPageWithCategoriesM note root st =
        (⟨note.title, idGen st.fresh, [], []⟩,
         ⟨(root.title ++ '.' :: L, ⟨L, root.id, idGen st.fresh, []⟩) :: st.categories,
          st.created ++ [⟨L, root.id, idGen st.fresh, []⟩],
          st.fresh + 1⟩))
  ∧ (∀ (note : NoteM) (root : PageM) (st : ImportState) (L : List Char)
      (rest : List (List Char)) (P : PageM), note.labels = L :: rest →
      catLookup (root.title ++ '.' :: L) st.categories = some P →
      importPageWithCategoriesM note root st = (PageM.mkPage note.title P.id, st))
  ∧ (∀ (note : NoteM) (root : PageM) (st : ImportState) (k : List Char) (P : PageM),
      catLookup k st.categories = some P →
      catLookup k (importPageWithCategoriesM note root st).2.categories = some P) := by
  refine ⟨?_, ?_, ?_, ?_⟩
  · intro note root st hl
    unfold importPageWithCategoriesM getNoteCategories
    rw [hl]
  · intro note root st L rest hl hc
    unfold importPageWithCategoriesM getNoteCategories
    rw [hl]
    simp only [hc, create_pageM, PageM.mkPage]
  · intro note root st L rest P hl hc
    unfold importPageWithCategoriesM getNoteCategories
    rw [hl]
    simp only [hc]
  · intro note root st k P h
    unfold importPageWithCategoriesM getNoteCategories
    cases hl : note.labels with
    | nil => exact h
    | cons L rest =>
      cases hc : catLookup (root.title ++ '.' :: L) st.categories with
      | some Q =>
        simp only [hc]
        exact h
      | none =>
        simp only [hc, create_pageM]
        simp only [catLookup]
        by_cases hk : root.title ++ '.' :: L = k
        · rw [hk] at hc
          rw [hc] at h
          cases h
        · simp only [if_neg hk]
          exact h

/-- Witness for C6: a label-free note lands under the root; a note whose
label is already cached reuses the cached page with the state unchanged. -/
theorem C6_importPageWithCategories_witness :
    importPageWithCategoriesM ⟨("A").toList, []⟩ demoRoot demoState =
      (PageM.mkPage (("A").toList) demoRoot.id, demoState) ∧
    importPageWithCategoriesM demoNote demoRoot demoStateWork =
      (PageM.mkPage demoNote.title demoWorkPage.id, demoStateWork) :=
  ⟨C6_importPageWithCategories.1 ⟨("A").toList, []⟩ demoRoot demoState rfl,
   C6_importPageWithCategories.2.2.1 demoNote demoRoot demoStateWork
     (("Work").toList) [] demoWorkPage rfl (by decide)⟩

/-! ### Claim C7: create_page batching -/

theorem create_pageGo_flatten : ∀ (n : Nat) (l : List BlockRec) (i : Nat),
    l.length - i ≤ n → (create_pageGo l i).flatten = l.drop i := by
  intro n
  induction n with
  | zero =>
    intro l i h
    rw [create_pageGo, if_neg (by omega)]
    simp [List.drop_eq_nil_of_le (by omega : l.length ≤ i)]
  | succ n ih =>
    intro l i h
    by_cases hi : i < l.length
    · rw [create_pageGo, if_pos hi]
      rw [List.flatten_cons]
      rw [ih l (i + 100) (by omega)]
      have h2 : (l.drop i).drop 100 = l.drop (i + 100) := by
        rw [List.drop_drop]
      rw [← h2, List.take_append_drop]
    · rw [create_pageGo, if_neg hi]
      simp [List.drop_eq_nil_of_le (by omega : l.length ≤ i)]

theorem create_pageGo_size : ∀ (n : Nat) (l : List BlockRec) (i : Nat),
    l.length - i ≤ n → ∀ b ∈ create_pageGo l i, b.length ≤ 100 := by
  intro n
  induction n with
  | zero =>
    intro l i h b hb
    rw [create_pageGo, if_neg (by omega)] at hb
    simp at hb
  | succ n ih =>
    intro l i h b hb
    by_cases hi : i < l.length
    · rw [create_pageGo, if_pos hi] at hb
      rcases List.mem_cons.mp hb with rfl | hb2
      · simp [List.length_take_le 100 (l.drop i)]
      · exact ih l (i + 100) (by omega) b hb2
    · rw [create_pageGo, if_neg hi] at hb
      simp at hb

/-- C7: `create_page` submits the children in consecutive batches of at most
100 blocks, in order, and their concatenation is exactly the original child
list, so every block is sent exactly once. -/
theorem C7_create_page_batches :
    ∀ children : List BlockRec,
      (∀ batch ∈ create_pageBatches children, batch.length ≤ 100) ∧
      (create_pageBatches children).flatten = children := by
  intro children
  constructor
  · exact create_pageGo_size children.length children 0 (by omega)
  · have h := create_pageGo_flatten children.length children 0 (by omega)
    simpa using h

/-- Witness for C7 on a one-block child list. -/
theorem C7_create_page_batches_witness :
    (create_pageBatches [demoBlock]).flatten = [demoBlock] :=
  (C7_create_page_batches [demoBlock]).2

/-! ### Claim C8: throttle spacing -/

theorem wait_eq_throttled (st : ThrottleM) (now : ℚ)
    (hc : 0 < st.last_call ∧ now - st.last_call < st.interval) :
    st.wait now = (now + (st.interval - (now - st.last_call)),
      { st with last_call := now + (st.interval - (now - st.last_call)) }) := by
  simp only [ThrottleM.wait]
  rw [if_pos hc]

theorem wait_eq_free (st : ThrottleM) (now : ℚ)
    (hc : ¬(0 < st.last_call ∧ now - st.last_call < st.interval)) :
    st.wait now = (now, { st with last_call := now }) := by
  simp only [ThrottleM.wait]
  rw [if_neg hc]

theorem throttleRuns_chain : ∀ (nows : List ℚ) (st : ThrottleM),
    0 < st.last_call → st.interval = 1 / 3 →
    List.Chain (fun x y => x + 1 / 3 ≤ y) st.last_call (throttleRuns st nows) := by
  intro nows
  induction nows with
  | nil =>
    intro st h0 hint
    exact List.Chain.nil
  | cons now rest ih =>
    intro st h0 hint
    by_cases hc : 0 < st.last_call ∧ now - st.last_call < st.interval
    · rw [throttleRuns, wait_eq_throttled st now hc]
      have ht : now + (st.interval - (now - st.last_call)) = st.last_call + 1 / 3 := by
        rw [hint]
        ring
      rw [ht]
      show List.Chain (fun x y => x + 1 / 3 ≤ y) st.last_call
        ((st.last_call + 1 / 3) ::
          throttleRuns { st with last_call := st.last_call + 1 / 3 } rest)
      refine List.Chain.cons ?_ ?_
      · show st.last_call + 1 / 3 ≤ st.last_call + 1 / 3
        linarith
      · exact ih { st with last_call := st.last_call + 1 / 3 }
          (by show (0 : ℚ) < st.last_call + 1 / 3
              have h13 : (0 : ℚ) < 1 / 3 := by norm_num
              linarith)
          hint
    · rw [throttleRuns, wait_eq_free st now hc]
      show List.Chain (fun x y => x + 1 / 3 ≤ y) st.last_call
        (now :: throttleRuns { st with last_call := now } rest)
      push_neg at hc
      have h2 : st.interval ≤ now - st.last_call := hc h0
      have h3 : st.last_call + 1 / 3 ≤ now := by
        rw [hint] at h2
        linarith
      refine List.Chain.cons ?_ ?_
      · show st.last_call + 1 / 3 ≤ now
        exact h3
      · exact ih { st with last_call := now }
          (by show (0 : ℚ) < now
              have h13 : (0 : ℚ) < 1 / 3 := by norm_num
              linarith)
          hint

/-- C8: starting from the module throttle (`Throttle(3)`, interval 1/3 s),
for any positive first clock reading the first call proceeds undelayed, and
any two consecutive calls begin at least `1/rate_limit = 1/3` seconds
apart, whatever the subsequent clock readings are. -/
theorem C8_throttle_spacing :
    ∀ (n : ℚ) (rest : List ℚ), 0 < n →
      (throttleRuns throttle (n :: rest)).head? = some n ∧
      List.Chain' (fun x y => x + 1 / 3 ≤ y) (throttleRuns throttle (n :: rest)) := by
  intro n rest hn
  have hw : throttle.wait n = (n, { throttle with last_call := n }) := by
    apply wait_eq_free
    rintro ⟨h1, -⟩
    exact absurd h1 (by norm_num [throttle, mkThrottle])
  rw [throttleRuns, hw]
  refine ⟨rfl, ?_⟩
  show List.Chain (fun x y => x + 1 / 3 ≤ y) n
    (throttleRuns { throttle with last_call := n } rest)
  have hch := throttleRuns_chain rest { throttle with last_call := n }
    (by simpa using hn) rfl
  simpa using hch

/-- Witness for C8 at clock readings `1, 5/4, 2`. -/
theorem C8_throttle_spacing_witness :
    (throttleRuns throttle ((1 : ℚ) :: [(5 : ℚ) / 4, 2])).head? = some 1 ∧
    List.Chain' (fun x y => x + 1 / 3 ≤ y)
      (throttleRuns throttle ((1 : ℚ) :: [(5 : ℚ) / 4, 2])) :=
  C8_throttle_spacing 1 [(5 : ℚ) / 4, 2] (by norm_num)

/-! ### Claim C9: rich-text segment lists are never empty -/

/-- C9: `RichText` always yields at least one chunk -- on the empty string
exactly one plain chunk with empty content -- so `add_text` and `add_todo`
preserve the invariant that no block of a page has an empty segment list. -/
theorem C9_nonempty_richtext :
    (∀ t : List Char, richTextChunks t ≠ [])
  ∧ richTextChunks [] = [RTChunk.plain []]
  ∧ (∀ (page : PageM) (text : List Char) (ty : BlockType),
      page.children.all (fun b => !b.rich_text.isEmpty) = true →
      ((page.add_text text ty).children.all (fun b => !b.rich_text.isEmpty)) = true)
  ∧ (∀ (page : PageM) (text : List Char) (ck : Bool),
      page.children.all (fun b => !b.rich_text.isEmpty) = true →
      ((page.add_todo text ck).children.all (fun b => !b.rich_text.isEmpty)) = true) := by
  have hne : ∀ t : List Char, richTextChunks t ≠ [] := by
    intro t hcon
    unfold richTextChunks at hcon
    rw [List.map_eq_nil_iff] at hcon
    exact urlSplitAux_ne_nil t.length t hcon
  have hbool : ∀ t : List Char, (richTextChunks t).isEmpty = false := by
    intro t
    cases hh : (richTextChunks t).isEmpty with
    | false => rfl
    | true => exact absurd (List.isEmpty_iff.mp hh) (hne t)
  refine ⟨hne, rfl, ?_, ?_⟩
  · intro page text ty h
    unfold PageM.add_text
    simp [List.all_append, h, hbool text]
  · intro page text ck h
    unfold PageM.add_todo
    simp [List.all_append, h, hbool text]

/-- Witness for C9: appending to an empty page keeps the invariant. -/
theorem C9_nonempty_richtext_witness :
    ((PageM.mkPage [] []).add_text (("hello").toList) BlockType.Paragraph).children.all
      (fun b => !b.rich_text.isEmpty) = true :=
  C9_nonempty_richtext.2.2.1 (PageM.mkPage [] []) (("hello").toList)
    BlockType.Paragraph (by decide)

end Gkeep2Notion
